import Mathlib

/-!
Shallow embedding of the job-queue / dispatch / result-lifecycle core of
TgMangaTranslator (src/main.py).

Job identifiers (in the source: filesystem paths of saved images, used as
de-facto keys) are modelled as naturals; timestamps (`time.perf_counter`)
as naturals.  The global mutable state (`translate_tasks`,
`translate_result`, and the worker's in-flight backend call) is one record,
and the asyncio interleaving of the single worker with caller coroutines is
a small-step event system: `enqueue` is `add_translate_task` run by a
caller, `dispatch` is the worker's `translate_tasks.pop(0)` +
`create_task`, and `publish` is the worker observing `task.done()`, storing
`(task, now)` into `translate_result` and immediately running the reaper
with that same `now` (lines 58-82 of src/main.py).
-/

/-- Job identifier: in the source, the saved image's filesystem path. -/
abbrev JobId := Nat

/-- `TRANSLATE_RESULT_TIMEOUT = 600` (src/main.py line 24). -/
def TRANSLATE_RESULT_TIMEOUT : Nat := 600

/-- Outcome held by the completed `asyncio.Task` that the worker stores in
`translate_result`: `translate_manga_request` (the opaque backend call)
either returned a translated path, or raised an exception which the task
object captured. -/
inductive Outcome where
  | success (out : Nat)
  | failure (err : Nat)
deriving DecidableEq

/-- Python `list.index`, with `ValueError` mapped to `none`, as used by
`translate_task_index` (src/main.py lines 114-118): index of the first
occurrence, or `none` when absent. -/
def list_index (l : List JobId) (j : JobId) : Option Nat :=
  match l with
  | [] => none
  | x :: xs => if x = j then some 0 else (list_index xs j).map (· + 1)

/-- `translate_task_index` (src/main.py lines 114-118), with the global
`translate_tasks` passed explicitly. -/
def translate_task_index (tasks : List JobId) (src : JobId) : Option Nat :=
  list_index tasks src

/-- `add_translate_task` (src/main.py lines 109-111): append, then return
`len(translate_tasks) - 1`.  Returns the new queue and the returned index. -/
def add_translate_task (tasks : List JobId) (src : JobId) : List JobId × Nat :=
  (tasks ++ [src], (tasks ++ [src]).length - 1)

/-- One entry of the `translate_result` dict: key, completed outcome,
publish time (`now` at line 67-68). -/
abbrev ResultMap := List (JobId × Outcome × Nat)

/-- The keys of a `ResultMap`. -/
def keysOf (m : ResultMap) : List JobId := m.map (fun e => e.1)

/-- Python dict read `translate_result[photo]` (also the membership test
`photo in translate_result`), as an association-list lookup. -/
def lookupResult (m : ResultMap) (j : JobId) : Option (Outcome × Nat) :=
  match m with
  | [] => none
  | (k, o, t) :: rest => if k = j then some (o, t) else lookupResult rest j

/-- Python dict assignment `translate_result[photo] = (task, now)`
(src/main.py line 68): overwrite in place when the key exists, append
otherwise. -/
def dinsert (m : ResultMap) (j : JobId) (o : Outcome) (t : Nat) : ResultMap :=
  match m with
  | [] => [(j, o, t)]
  | (k, o', t') :: rest =>
      if k = j then (j, o, t) :: rest else (k, o', t') :: dinsert rest j o t

/-- The reaper (src/main.py lines 70-82): delete from `translate_result`
every entry whose timestamp satisfies `t + TRANSLATE_RESULT_TIMEOUT < now`
(strict), keeping the rest in order. -/
def reap (m : ResultMap) (now : Nat) : ResultMap :=
  match m with
  | [] => []
  | (k, o, t) :: rest =>
      if t + TRANSLATE_RESULT_TIMEOUT < now then reap rest now
      else (k, o, t) :: reap rest now

/-- The process-wide shared state of src/main.py (lines 33-35) plus the
worker's control point, plus two ghost history fields (`enqueued`,
`dispatched`) recording the order in which jobs were submitted and the
order in which the worker handed them to the backend. -/
structure SysState where
  translate_tasks : List JobId
  translate_result : ResultMap
  inflight : Option JobId
  enqueued : List JobId
  dispatched : List JobId
deriving DecidableEq

/-- The initial state: empty queue, empty result dict, worker idle. -/
def SysState.init : SysState := ⟨[], [], none, [], []⟩

/-- Interleaving events of the system: a caller's `add_translate_task`, the
worker's `pop(0)`-and-invoke-backend, and the worker's
publish-then-reap once the backend task is done. -/
inductive Ev where
  | enqueue (j : JobId)
  | dispatch
  | publish (o : Outcome) (now : Nat)
deriving DecidableEq

/-- One small step of the system.  `dispatch` is enabled only when the
worker is idle (the source's single worker busy-waits on `task.done()`
before it ever pops again, lines 63-66) and the queue is nonempty (line
61); `publish` is enabled only when a call is in flight, and performs
line 68 followed by the reaper, both using the same `now`. -/
def step (s : SysState) : Ev → Option SysState
  | .enqueue j =>
      some { s with translate_tasks := s.translate_tasks ++ [j],
                    enqueued := s.enqueued ++ [j] }
  | .dispatch =>
      match s.inflight, s.translate_tasks with
      | none, j :: rest =>
          some { s with translate_tasks := rest, inflight := some j,
                        dispatched := s.dispatched ++ [j] }
      | _, _ => none
  | .publish o now =>
      match s.inflight with
      | some j =>
          some { s with inflight := none,
                        translate_result :=
                          reap (dinsert s.translate_result j o now) now }
      | none => none

/-- Run a sequence of events from a state. -/
def run (s : SysState) : List Ev → Option SysState
  | [] => some s
  | e :: es => (step s e).bind fun s1 => run s1 es

/-- The spec's JobID uniqueness precondition (§3: at most one
pending-or-in-flight job per identifier; a caller must not resubmit an
identifier still present in the queue or the store): an `enqueue` is fresh
when its id is in none of the three places. -/
def freshEv (s : SysState) : Ev → Bool
  | .enqueue j =>
      decide (j ∉ s.translate_tasks) &&
      decide (j ∉ keysOf s.translate_result) &&
      decide (s.inflight ≠ some j)
  | _ => true

/-- Run a sequence of events, requiring every `enqueue` to be fresh. -/
def runFresh (s : SysState) : List Ev → Option SysState
  | [] => some s
  | e :: es =>
      if freshEv s e then (step s e).bind fun s1 => runFresh s1 es
      else none

/-- Is an event the worker's dequeue-and-invoke step? -/
def isDispatchEv : Ev → Bool
  | .dispatch => true
  | _ => false

/-- Is an event the worker's publish step (backend call completed)? -/
def isPublishEv : Ev → Bool
  | .publish _ _ => true
  | _ => false

/-- Number of backend calls currently in flight (0 or 1 by the type). -/
def inflightN (s : SysState) : Nat :=
  match s.inflight with
  | some _ => 1
  | none => 0

/-- The largest timestamp occurring in a trace: a query at time `q` with
`maxTime evs ≤ q` is a read of the final state that happens after every
event of the trace. -/
def evTime : Ev → Nat
  | .publish _ t => t
  | _ => 0

/-- See `evTime`. -/
def maxTime (evs : List Ev) : Nat := evs.foldr (fun e m => max (evTime e) m) 0

/-- Messages the waiter's position-polling loop can emit in one iteration
(src/main.py lines 226-233): the "processing started" edit, the "n tasks
ahead" progress edit, or nothing. -/
inductive WaitMsg where
  | processing
  | progress (n : Nat)
  | noChange
deriving DecidableEq

/-- One iteration of the waiter's position loop body (src/main.py lines
227-233), given the last observed position `idx` (nonzero, by the loop
guard `while idx:`) and the freshly read `translate_task_index` result.
Returns the emitted message, the updated `idx`, and whether the loop
breaks.  Note the source's `if not new_idx:` is Python falsiness: it fires
on `None` and on `0` alike. -/
def pollOnce (idx : Nat) (new_idx : Option Nat) : WaitMsg × Nat × Bool :=
  match new_idx with
  | none => (.processing, idx, true)
  | some 0 => (.processing, idx, true)
  | some (n + 1) =>
      if idx = n + 1 then (.noChange, idx, false)
      else (.progress (n + 1), n + 1, false)

/-- The waiter's result wait loop `while saved_file_path not in
translate_result: await asyncio.sleep(SHIFT_CORO)` (src/main.py lines
234-235), fuel-bounded: `present t` abstracts the membership test at poll
tick `t`; the loop returns the tick at which it first saw the entry, or
`none` if the fuel ran out without ever seeing it. -/
def waitResult (present : Nat → Bool) : Nat → Nat → Option Nat
  | _, 0 => none
  | t, fuel + 1 => if present t then some t else waitResult present (t + 1) fuel

/-- Errors raised by `ChatMessageReader.save_photo` (src/main.py lines
38-47, 131-153). -/
inductive RunError where
  | photoMissing
  | photoTooBig
  | unknownError
deriving DecidableEq

/-- The size test of src/main.py line 145, `file.file_size and
file.file_size > 1024 * 1024`, with Python truthiness: a missing
(`None`) or zero reported size short-circuits to falsy. -/
def file_too_big : Option Nat → Bool
  | none => false
  | some n => if n = 0 then false else decide (1024 * 1024 < n)

/-- `ChatMessageReader.save_photo` (src/main.py lines 131-153), with the
Telegram I/O abstracted: `has_photo` is whether `message.photo` is
nonempty, `file_size` the reported `file.file_size`, `download_ok` whether
`download_to_drive` succeeded, `save_path` the path the photo is saved
under. -/
def save_photo (has_photo : Bool) (file_size : Option Nat) (download_ok : Bool)
    (save_path : JobId) : Except RunError JobId :=
  if !has_photo then .error .photoMissing
  else if file_too_big file_size then .error .photoTooBig
  else if !download_ok then .error .unknownError
  else .ok save_path

/-- What the submission phase of `CatGirlService.run` did. -/
inductive SubmitOutcome where
  | rejected (e : RunError)
  | missingOnDisk
  | enqueued (idx : Nat)
deriving DecidableEq

/-- The submission phase of `CatGirlService.run` (src/main.py lines
205-225): validate and save the photo, bail out with an error reply on any
`save_photo` exception or when the saved file is not on disk, otherwise
enqueue via `add_translate_task`.  Returns the new queue and what
happened. -/
def service_submit (has_photo : Bool) (file_size : Option Nat)
    (download_ok : Bool) (file_exists : Bool) (save_path : JobId)
    (tasks : List JobId) : List JobId × SubmitOutcome :=
  match save_photo has_photo file_size download_ok save_path with
  | .error e => (tasks, .rejected e)
  | .ok p =>
      if !file_exists then (tasks, .missingOnDisk)
      else ((add_translate_task tasks p).1, .enqueued (add_translate_task tasks p).2)

/-- The safety invariant of the shared structures: the pending queue has no
duplicates, no pending job already has a result entry, and an in-flight
job is in neither structure. -/
def SysInv (s : SysState) : Prop :=
  s.translate_tasks.Nodup ∧
  (∀ j ∈ s.translate_tasks, j ∉ keysOf s.translate_result) ∧
  (∀ j, s.inflight = some j →
      j ∉ s.translate_tasks ∧ j ∉ keysOf s.translate_result)

/-! Helper lemmas about the result map. -/

theorem mem_keysOf {m : ResultMap} {k : JobId} :
    k ∈ keysOf m ↔ ∃ o t, (k, o, t) ∈ m := by
  induction m with
  | nil => simp [keysOf]
  | cons e rest ih =>
      obtain ⟨a, b, c⟩ := e
      simp only [keysOf, List.map_cons, List.mem_cons] at ih ⊢
      constructor
      · rintro (h | h)
        · subst h; exact ⟨b, c, Or.inl rfl⟩
        · obtain ⟨o, t, hm⟩ := ih.mp h
          exact ⟨o, t, Or.inr hm⟩
      · rintro ⟨o, t, h | h⟩
        · exact Or.inl (congrArg Prod.fst h)
        · exact Or.inr (ih.mpr ⟨o, t, h⟩)

theorem mem_reap {m : ResultMap} {now : Nat} {k : JobId} {o : Outcome} {t : Nat} :
    (k, o, t) ∈ reap m now ↔
      (k, o, t) ∈ m ∧ ¬ (t + TRANSLATE_RESULT_TIMEOUT < now) := by
  induction m with
  | nil => simp [reap]
  | cons e rest ih =>
      obtain ⟨a, b, c⟩ := e
      by_cases hc : c + TRANSLATE_RESULT_TIMEOUT < now
      · rw [reap, if_pos hc]
        simp only [ih, List.mem_cons]
        constructor
        · rintro ⟨h1, h2⟩; exact ⟨Or.inr h1, h2⟩
        · rintro ⟨h1 | h1, h2⟩
          · have ht : t = c := congrArg (fun x => x.2.2) h1
            rw [ht] at h2
            exact absurd hc h2
          · exact ⟨h1, h2⟩
      · rw [reap, if_neg hc]
        simp only [List.mem_cons, ih]
        constructor
        · rintro (h1 | ⟨h1, h2⟩)
          · have ht : t = c := congrArg (fun x => x.2.2) h1
            exact ⟨Or.inl h1, ht ▸ hc⟩
          · exact ⟨Or.inr h1, h2⟩
        · rintro ⟨h1 | h1, h2⟩
          · exact Or.inl h1
          · exact Or.inr ⟨h1, h2⟩

theorem mem_dinsert {m : ResultMap} {j : JobId} {o : Outcome} {t : Nat}
    {x : JobId × Outcome × Nat} (h : x ∈ dinsert m j o t) :
    x ∈ m ∨ x = (j, o, t) := by
  induction m with
  | nil => simpa [dinsert] using h
  | cons e rest ih =>
      obtain ⟨a, b, c⟩ := e
      by_cases ha : a = j
      · rw [dinsert, if_pos ha] at h
        rcases List.mem_cons.mp h with h1 | h1
        · exact Or.inr h1
        · exact Or.inl (List.mem_cons_of_mem _ h1)
      · rw [dinsert, if_neg ha] at h
        rcases List.mem_cons.mp h with h1 | h1
        · exact Or.inl (h1 ▸ List.mem_cons_self _ _)
        · rcases ih h1 with h2 | h2
          · exact Or.inl (List.mem_cons_of_mem _ h2)
          · exact Or.inr h2

theorem mem_dinsert_of_ne {m : ResultMap} {j k : JobId} {o o' : Outcome}
    {t t' : Nat} (hne : k ≠ j) :
    (k, o', t') ∈ dinsert m j o t ↔ (k, o', t') ∈ m := by
  induction m with
  | nil =>
      simp only [dinsert, List.mem_singleton, List.not_mem_nil, iff_false]
      intro h
      exact hne (congrArg Prod.fst h)
  | cons e rest ih =>
      obtain ⟨a, b, c⟩ := e
      by_cases ha : a = j
      · subst ha
        rw [dinsert, if_pos rfl]
        simp only [List.mem_cons, ih]
        constructor
        · rintro (h | h)
          · exact absurd (congrArg Prod.fst h) hne
          · exact Or.inr h
        · rintro (h | h)
          · exact absurd (congrArg Prod.fst h) hne
          · exact Or.inr h
      · rw [dinsert, if_neg ha]
        simp only [List.mem_cons, ih]

theorem mem_keysOf_reap {m : ResultMap} {now : Nat} {k : JobId}
    (h : k ∈ keysOf (reap m now)) : k ∈ keysOf m := by
  obtain ⟨o, t, hm⟩ := mem_keysOf.mp h
  exact mem_keysOf.mpr ⟨o, t, (mem_reap.mp hm).1⟩

theorem mem_keysOf_dinsert {m : ResultMap} {j : JobId} {o : Outcome} {t : Nat}
    {k : JobId} (h : k ∈ keysOf (dinsert m j o t)) : k ∈ keysOf m ∨ k = j := by
  obtain ⟨o', t', hm⟩ := mem_keysOf.mp h
  rcases mem_dinsert hm with h1 | h1
  · exact Or.inl (mem_keysOf.mpr ⟨o', t', h1⟩)
  · exact Or.inr (congrArg Prod.fst h1)

theorem lookupResult_eq_none {m : ResultMap} {j : JobId}
    (h : j ∉ keysOf m) : lookupResult m j = none := by
  induction m with
  | nil => rfl
  | cons e rest ih =>
      obtain ⟨a, b, c⟩ := e
      simp only [keysOf, List.map_cons, List.mem_cons, not_or] at h
      have ha : ¬ (a = j) := fun hc => h.1 hc.symm
      rw [lookupResult, if_neg ha]
      exact ih (by simpa [keysOf] using h.2)

theorem dinsert_of_not_mem {m : ResultMap} {j : JobId} {o : Outcome} {t : Nat}
    (h : j ∉ keysOf m) : dinsert m j o t = m ++ [(j, o, t)] := by
  induction m with
  | nil => rfl
  | cons e rest ih =>
      obtain ⟨a, b, c⟩ := e
      simp only [keysOf, List.map_cons, List.mem_cons, not_or] at h
      have ha : ¬ (a = j) := fun hc => h.1 hc.symm
      rw [dinsert, if_neg ha, List.cons_append]
      exact congrArg _ (ih (by simpa [keysOf] using h.2))

theorem reap_append (m m' : ResultMap) (now : Nat) :
    reap (m ++ m') now = reap m now ++ reap m' now := by
  induction m with
  | nil => rfl
  | cons e rest ih =>
      obtain ⟨a, b, c⟩ := e
      by_cases hc : c + TRANSLATE_RESULT_TIMEOUT < now
      · rw [List.cons_append, reap, if_pos hc, reap, if_pos hc, ih]
      · rw [List.cons_append, reap, if_neg hc, reap, if_neg hc, ih, List.cons_append]

theorem lookupResult_append_of_not_mem {m m' : ResultMap} {j : JobId}
    (h : j ∉ keysOf m) : lookupResult (m ++ m') j = lookupResult m' j := by
  induction m with
  | nil => rfl
  | cons e rest ih =>
      obtain ⟨a, b, c⟩ := e
      simp only [keysOf, List.map_cons, List.mem_cons, not_or] at h
      have ha : ¬ (a = j) := fun hc => h.1 hc.symm
      rw [List.cons_append, lookupResult, if_neg ha]
      exact ih (by simpa [keysOf] using h.2)

/-! Helper lemmas about lists and the queue index. -/

theorem nodup_snoc {l : List JobId} {j : JobId} (h : l.Nodup) (hj : j ∉ l) :
    (l ++ [j]).Nodup := by
  induction l with
  | nil => simp
  | cons a rest ih =>
      rw [List.nodup_cons] at h
      rw [List.cons_append, List.nodup_cons]
      refine ⟨?_, ih h.2 (fun hm => hj (List.mem_cons_of_mem _ hm))⟩
      rw [List.mem_append]
      rintro (hm | hm)
      · exact h.1 hm
      · rw [List.mem_singleton] at hm
        exact hj (hm ▸ List.mem_cons_self _ _)

theorem list_index_append_left {l l' : List JobId} {j : JobId} {p : Nat}
    (h : list_index l j = some p) : list_index (l ++ l') j = some p := by
  induction l generalizing p with
  | nil => simp [list_index] at h
  | cons x xs ih =>
      by_cases hx : x = j
      · rw [list_index, if_pos hx] at h
        rw [List.cons_append, list_index, if_pos hx]
        exact h
      · rw [list_index, if_neg hx] at h
        rw [List.cons_append, list_index, if_neg hx]
        obtain ⟨q, hq, rfl⟩ := Option.map_eq_some'.mp h
        rw [ih hq]
        rfl

theorem list_index_none_of_not_mem {l : List JobId} {j : JobId} (h : j ∉ l) :
    list_index l j = none := by
  induction l with
  | nil => rfl
  | cons x xs ih =>
      rw [List.mem_cons, not_or] at h
      have hx : ¬ (x = j) := fun hc => h.1 hc.symm
      rw [list_index, if_neg hx, ih h.2]
      rfl

theorem list_index_zero {x : JobId} {xs : List JobId} {j : JobId}
    (h : list_index (x :: xs) j = some 0) : x = j := by
  by_contra hx
  rw [list_index, if_neg hx] at h
  obtain ⟨q, _, hq⟩ := Option.map_eq_some'.mp h
  omega

theorem list_index_mem {l : List JobId} {j : JobId} {p : Nat}
    (h : list_index l j = some p) : j ∈ l := by
  induction l generalizing p with
  | nil => simp [list_index] at h
  | cons x xs ih =>
      by_cases hx : x = j
      · exact hx ▸ List.mem_cons_self _ _
      · rw [list_index, if_neg hx] at h
        obtain ⟨q, hq, _⟩ := Option.map_eq_some'.mp h
        exact List.mem_cons_of_mem _ (ih hq)

/-! Preservation of the safety invariant along fresh runs. -/

theorem sysInv_init : SysInv SysState.init := by
  refine ⟨List.nodup_nil, ?_, ?_⟩
  · intro j hj; simp [SysState.init] at hj
  · intro j hj; simp [SysState.init] at hj

theorem sysInv_step {s s' : SysState} {e : Ev} (hI : SysInv s)
    (hf : freshEv s e = true) (h : step s e = some s') : SysInv s' := by
  obtain ⟨hN, hQ, hF⟩ := hI
  cases e with
  | enqueue j =>
      simp only [freshEv, Bool.and_eq_true, decide_eq_true_eq] at hf
      obtain ⟨⟨hf1, hf2⟩, hf3⟩ := hf
      simp only [step, Option.some.injEq] at h
      subst h
      refine ⟨nodup_snoc hN hf1, ?_, ?_⟩
      · intro k hk
        rcases List.mem_append.mp hk with hk | hk
        · exact hQ k hk
        · rw [List.mem_singleton] at hk
          exact hk ▸ hf2
      · intro k hk
        obtain ⟨hk1, hk2⟩ := hF k hk
        refine ⟨?_, hk2⟩
        rw [List.mem_append]
        rintro (hm | hm)
        · exact hk1 hm
        · rw [List.mem_singleton] at hm
          exact hf3 (hm ▸ hk)
  | dispatch =>
      cases hinf : s.inflight with
      | some j => rw [step, hinf] at h; exact absurd h (by simp)
      | none =>
          cases htk : s.translate_tasks with
          | nil => rw [step, hinf, htk] at h; exact absurd h (by simp)
          | cons x rest =>
              rw [step, hinf, htk] at h
              simp only [Option.some.injEq] at h
              subst h
              rw [htk] at hN hQ
              rw [List.nodup_cons] at hN
              refine ⟨hN.2, ?_, ?_⟩
              · intro k hk
                exact hQ k (List.mem_cons_of_mem _ hk)
              · intro k hk
                simp only [Option.some.injEq] at hk
                subst hk
                exact ⟨hN.1, hQ _ (List.mem_cons_self _ _)⟩
  | publish o now =>
      cases hinf : s.inflight with
      | none => rw [step, hinf] at h; exact absurd h (by simp)
      | some j =>
          rw [step, hinf] at h
          simp only [Option.some.injEq] at h
          subst h
          obtain ⟨hj1, hj2⟩ := hF j hinf
          refine ⟨hN, ?_, ?_⟩
          · intro k hk hmem
            rcases mem_keysOf_dinsert (mem_keysOf_reap hmem) with hm | hm
            · exact hQ k hk hm
            · exact hj1 (hm ▸ hk)
          · intro k hk
            exact absurd hk (by simp)

theorem sysInv_runFresh {evs : List Ev} {s s' : SysState} (hI : SysInv s)
    (h : runFresh s evs = some s') : SysInv s' := by
  induction evs generalizing s with
  | nil =>
      rw [runFresh] at h
      simp only [Option.some.injEq] at h
      exact h ▸ hI
  | cons e es ih =>
      rw [runFresh] at h
      by_cases hf : freshEv s e
      · rw [if_pos hf] at h
        cases hst : step s e with
        | none => rw [hst] at h; exact absurd h (by simp)
        | some s1 =>
            rw [hst] at h
            simp only [Option.some_bind] at h
            exact ih (sysInv_step hI hf hst) h
      · rw [if_neg hf] at h
        exact absurd h (by simp)

theorem sysInv_reachable {evs : List Ev} {s : SysState}
    (h : runFresh SysState.init evs = some s) : SysInv s :=
  sysInv_runFresh sysInv_init h

/-! FIFO history invariant and serialization counting. -/

theorem hist_step {s s' : SysState} {e : Ev}
    (hH : s.enqueued = s.dispatched ++ s.translate_tasks)
    (h : step s e = some s') :
    s'.enqueued = s'.dispatched ++ s'.translate_tasks := by
  cases e with
  | enqueue j =>
      simp only [step, Option.some.injEq] at h
      subst h
      simp only [hH, List.append_assoc]
  | dispatch =>
      cases hinf : s.inflight with
      | some j => rw [step, hinf] at h; exact absurd h (by simp)
      | none =>
          cases htk : s.translate_tasks with
          | nil => rw [step, hinf, htk] at h; exact absurd h (by simp)
          | cons x rest =>
              rw [step, hinf, htk] at h
              simp only [Option.some.injEq] at h
              subst h
              rw [hH, htk]
              simp
  | publish o now =>
      cases hinf : s.inflight with
      | none => rw [step, hinf] at h; exact absurd h (by simp)
      | some j =>
          rw [step, hinf] at h
          simp only [Option.some.injEq] at h
          subst h
          exact hH

theorem hist_run {evs : List Ev} {s s' : SysState}
    (hH : s.enqueued = s.dispatched ++ s.translate_tasks)
    (h : run s evs = some s') :
    s'.enqueued = s'.dispatched ++ s'.translate_tasks := by
  induction evs generalizing s with
  | nil =>
      rw [run] at h
      simp only [Option.some.injEq] at h
      exact h ▸ hH
  | cons e es ih =>
      rw [run] at h
      cases hst : step s e with
      | none => rw [hst] at h; exact absurd h (by simp)
      | some s1 =>
          rw [hst] at h
          simp only [Option.some_bind] at h
          exact ih (hist_step hH hst) h

theorem take_length_append (l l' : List JobId) : (l ++ l').take l.length = l := by
  induction l with
  | nil => rfl
  | cons a rest ih => simp [ih]

theorem count_run {evs : List Ev} {s s' : SysState} (h : run s evs = some s') :
    evs.countP isDispatchEv + inflightN s = evs.countP isPublishEv + inflightN s' := by
  induction evs generalizing s with
  | nil =>
      rw [run] at h
      simp only [Option.some.injEq] at h
      subst h
      simp
  | cons e es ih =>
      rw [run] at h
      cases hst : step s e with
      | none => rw [hst] at h; exact absurd h (by simp)
      | some s1 =>
          rw [hst] at h
          simp only [Option.some_bind] at h
          have hrec := ih h
          cases e with
          | enqueue j =>
              simp only [step, Option.some.injEq] at hst
              have hfl : inflightN s1 = inflightN s := by
                subst hst; rfl
              rw [List.countP_cons, List.countP_cons]
              simp only [isDispatchEv, isPublishEv]
              omega
          | dispatch =>
              cases hinf : s.inflight with
              | some j => rw [step, hinf] at hst; exact absurd hst (by simp)
              | none =>
                  cases htk : s.translate_tasks with
                  | nil => rw [step, hinf, htk] at hst; exact absurd hst (by simp)
                  | cons x rest =>
                      rw [step, hinf, htk] at hst
                      simp only [Option.some.injEq] at hst
                      have h0 : inflightN s = 0 := by rw [inflightN, hinf]
                      have h1 : inflightN s1 = 1 := by
                        subst hst; rfl
                      rw [List.countP_cons, List.countP_cons]
                      simp [isDispatchEv, isPublishEv]
                      omega
          | publish o now =>
              cases hinf : s.inflight with
              | none => rw [step, hinf] at hst; exact absurd hst (by simp)
              | some j =>
                  rw [step, hinf] at hst
                  simp only [Option.some.injEq] at hst
                  have h1 : inflightN s = 1 := by rw [inflightN, hinf]
                  have h0 : inflightN s1 = 0 := by
                    subst hst; rfl
                  rw [List.countP_cons, List.countP_cons]
                  simp [isDispatchEv, isPublishEv]
                  omega

/-- Claim C1: for every sequence of submitted jobs, the dispatch loop
invokes the backend on them in exactly the order `add_translate_task`
enqueued them: in every reachable state the enqueue history equals the
dispatch history followed by the still-pending queue, so the worker always
removes and dispatches the head before touching any later entry, and the
dispatch order is an initial segment of the submission order. -/
theorem c1_fifo_dispatch_order (evs : List Ev) (s : SysState)
    (h : run SysState.init evs = some s) :
    s.enqueued = s.dispatched ++ s.translate_tasks ∧
    s.dispatched = s.enqueued.take s.dispatched.length := by
  have hH := hist_run (by rfl) h
  refine ⟨hH, ?_⟩
  rw [hH, take_length_append]

/-- Witness for `c1_fifo_dispatch_order` at the trace enqueue 1, enqueue 2,
dispatch. -/
theorem c1_fifo_dispatch_order_witness :
    (SysState.mk [2] [] (some 1) [1, 2] [1]).enqueued =
      (SysState.mk [2] [] (some 1) [1, 2] [1]).dispatched ++
        (SysState.mk [2] [] (some 1) [1, 2] [1]).translate_tasks ∧
    (SysState.mk [2] [] (some 1) [1, 2] [1]).dispatched =
      (SysState.mk [2] [] (some 1) [1, 2] [1]).enqueued.take
        (SysState.mk [2] [] (some 1) [1, 2] [1]).dispatched.length :=
  c1_fifo_dispatch_order [.enqueue 1, .enqueue 2, .dispatch] _ (by decide)

/-- Claim C5: at most one backend call is in flight in every reachable
state, for any interleaving: along any run the number of dispatches equals
the number of completed (published) backend calls plus the number of
in-flight calls, which is at most one; and while a call is in flight the
worker's dequeue step is disabled. -/
theorem c5_single_inflight (evs : List Ev) (s : SysState)
    (h : run SysState.init evs = some s) :
    evs.countP isDispatchEv = evs.countP isPublishEv + inflightN s ∧
    inflightN s ≤ 1 ∧
    (∀ j, s.inflight = some j → step s Ev.dispatch = none) := by
  have hc := count_run h
  have h0 : inflightN SysState.init = 0 := rfl
  refine ⟨by omega, ?_, ?_⟩
  · cases hs : s.inflight with
    | none => simp [inflightN, hs]
    | some j => simp [inflightN, hs]
  · intro j hj
    cases htk : s.translate_tasks <;> rw [step, hj, htk]

/-- Witness for `c5_single_inflight` at the trace enqueue 1, dispatch. -/
theorem c5_single_inflight_witness :
    ([Ev.enqueue 1, Ev.dispatch] : List Ev).countP isDispatchEv =
      ([Ev.enqueue 1, Ev.dispatch] : List Ev).countP isPublishEv +
        inflightN (SysState.mk [] [] (some 1) [1] [1]) ∧
    inflightN (SysState.mk [] [] (some 1) [1] [1]) ≤ 1 ∧
    (∀ j, (SysState.mk [] [] (some 1) [1] [1]).inflight = some j →
        step (SysState.mk [] [] (some 1) [1] [1]) Ev.dispatch = none) :=
  c5_single_inflight [.enqueue 1, .dispatch] _ (by decide)

/-- Claim C8: `add_translate_task` appends the job at the tail of the queue
and returns its 0-based index at insertion time, which is the pre-append
queue length; a returned 0 means the queue was empty, so the job is the
head and will be dispatched next. -/
theorem c8_enqueue_contract (tasks : List JobId) (j : JobId) :
    (add_translate_task tasks j).1 = tasks ++ [j] ∧
    (add_translate_task tasks j).2 = tasks.length ∧
    ((add_translate_task tasks j).2 = 0 → (add_translate_task tasks j).1 = [j]) := by
  have hlen : (add_translate_task tasks j).2 = tasks.length := by
    simp [add_translate_task]
  refine ⟨rfl, hlen, ?_⟩
  intro h0
  rw [hlen] at h0
  have he : tasks = [] := List.length_eq_zero.mp h0
  subst he
  rfl

/-- Witness for `c8_enqueue_contract` on the empty queue. -/
theorem c8_enqueue_contract_witness :
    (add_translate_task ([] : List JobId) 5).1 = [5] :=
  (c8_enqueue_contract [] 5).2.2 (by decide)

/-- Claim C9: in every reachable state (under the spec's unique-JobID
submission discipline) a job id has a `translate_result` entry only after
it has left `translate_tasks`: no id is pending and resulted at once, and
a dispatched-but-unpublished (in-flight) id is in neither structure — the
window in which the job is visible nowhere. -/
theorem c9_store_after_queue (evs : List Ev) (s : SysState)
    (h : runFresh SysState.init evs = some s) :
    (∀ j ∈ s.translate_tasks, lookupResult s.translate_result j = none) ∧
    (∀ j, s.inflight = some j →
        j ∉ s.translate_tasks ∧ lookupResult s.translate_result j = none) := by
  obtain ⟨hN, hQ, hF⟩ := sysInv_reachable h
  refine ⟨fun j hj => lookupResult_eq_none (hQ j hj), fun j hj => ?_⟩
  obtain ⟨h1, h2⟩ := hF j hj
  exact ⟨h1, lookupResult_eq_none h2⟩

/-- Witness for `c9_store_after_queue` at the trace enqueue 1, dispatch. -/
theorem c9_store_after_queue_witness :
    (∀ j ∈ (SysState.mk [] [] (some 1) [1] [1]).translate_tasks,
        lookupResult (SysState.mk [] [] (some 1) [1] [1]).translate_result j = none) ∧
    (∀ j, (SysState.mk [] [] (some 1) [1] [1]).inflight = some j →
        j ∉ (SysState.mk [] [] (some 1) [1] [1]).translate_tasks ∧
        lookupResult (SysState.mk [] [] (some 1) [1] [1]).translate_result j = none) :=
  c9_store_after_queue [.enqueue 1, .dispatch] _ (by decide)

/-- Shape of a successful enqueue step. -/
theorem step_enqueue_eq (s : SysState) (j : JobId) :
    step s (Ev.enqueue j) =
      some { s with translate_tasks := s.translate_tasks ++ [j],
                    enqueued := s.enqueued ++ [j] } := rfl

/-- Shape of a successful dispatch step. -/
theorem step_dispatch_eq {s : SysState} {k : JobId} {rest : List JobId}
    (hinf : s.inflight = none) (htk : s.translate_tasks = k :: rest) :
    step s Ev.dispatch =
      some { s with translate_tasks := rest, inflight := some k,
                    dispatched := s.dispatched ++ [k] } := by
  rw [step, hinf, htk]

/-- Shape of a successful publish step. -/
theorem step_publish_eq {s : SysState} {j : JobId} (hinf : s.inflight = some j)
    (o : Outcome) (now : Nat) :
    step s (Ev.publish o now) =
      some { s with inflight := none,
                    translate_result :=
                      reap (dinsert s.translate_result j o now) now } := by
  rw [step, hinf]

/-- Claim C3: a backend call that raises is captured, not propagated: while
a job is in flight the worker's publish step is always enabled — also for a
failure outcome — it records the captured exception in `translate_result`
under that job id (so the id is never left with no entry), the loop
returns to its idle point, and the next queued job can then still be
dispatched. -/
theorem c3_failure_isolated (evs : List Ev) (s : SysState)
    (h : runFresh SysState.init evs = some s)
    (j : JobId) (hj : s.inflight = some j) (e now : Nat) :
    ∃ s', step s (Ev.publish (Outcome.failure e) now) = some s' ∧
      lookupResult s'.translate_result j = some (Outcome.failure e, now) ∧
      s'.inflight = none ∧
      s'.translate_tasks = s.translate_tasks ∧
      ∀ k rest, s.translate_tasks = k :: rest →
        ∃ s'', step s' Ev.dispatch = some s'' ∧ s''.inflight = some k ∧
          s''.dispatched = s.dispatched ++ [k] := by
  obtain ⟨hj1, hj2⟩ := (sysInv_reachable h).2.2 j hj
  refine ⟨_, step_publish_eq hj (Outcome.failure e) now, ?_, rfl, rfl, ?_⟩
  · show lookupResult
        (reap (dinsert s.translate_result j (Outcome.failure e) now) now) j =
      some (Outcome.failure e, now)
    rw [dinsert_of_not_mem hj2, reap_append]
    have hkeep : reap [(j, Outcome.failure e, now)] now =
        [(j, Outcome.failure e, now)] := by
      rw [reap, if_neg (by omega), reap]
    rw [hkeep]
    have hnk : j ∉ keysOf (reap s.translate_result now) :=
      fun hm => hj2 (mem_keysOf_reap hm)
    rw [lookupResult_append_of_not_mem hnk, lookupResult, if_pos rfl]
  · intro k rest hkr
    exact ⟨_, step_dispatch_eq rfl hkr, rfl, rfl⟩

/-- Witness for `c3_failure_isolated` at the trace enqueue 1, dispatch,
with the backend failing at time 0. -/
theorem c3_failure_isolated_witness :
    ∃ s', step (SysState.mk [] [] (some 1) [1] [1])
        (Ev.publish (Outcome.failure 7) 0) = some s' ∧
      lookupResult s'.translate_result 1 = some (Outcome.failure 7, 0) ∧
      s'.inflight = none ∧
      s'.translate_tasks = (SysState.mk [] [] (some 1) [1] [1]).translate_tasks ∧
      ∀ k rest,
        (SysState.mk [] [] (some 1) [1] [1]).translate_tasks = k :: rest →
        ∃ s'', step s' Ev.dispatch = some s'' ∧ s''.inflight = some k ∧
          s''.dispatched =
            (SysState.mk [] [] (some 1) [1] [1]).dispatched ++ [k] :=
  c3_failure_isolated [.enqueue 1, .dispatch]
    (SysState.mk [] [] (some 1) [1] [1]) (by decide) 1 (by decide) 7 0

/-- Claim C6: a queued job's observed `translate_task_index` position never
increases: an enqueue by another caller leaves it unchanged, a publish
leaves it unchanged, and a dispatch of the job ahead of it decreases it by
exactly one — while a dispatch when it is itself at the head (position 0)
makes its position `none` and puts it in flight.  So no job is skipped or
reordered. -/
theorem c6_position_monotone (evs : List Ev) (s : SysState)
    (h : runFresh SysState.init evs = some s)
    (j : JobId) (p : Nat)
    (hp : translate_task_index s.translate_tasks j = some p) :
    (∀ k s', step s (Ev.enqueue k) = some s' →
        translate_task_index s'.translate_tasks j = some p) ∧
    (∀ o t s', step s (Ev.publish o t) = some s' →
        translate_task_index s'.translate_tasks j = some p) ∧
    (∀ s', step s Ev.dispatch = some s' →
        (p = 0 → s'.inflight = some j ∧
            translate_task_index s'.translate_tasks j = none) ∧
        (0 < p → translate_task_index s'.translate_tasks j = some (p - 1))) := by
  obtain ⟨hN, hQ, hF⟩ := sysInv_reachable h
  rw [translate_task_index] at hp
  refine ⟨?_, ?_, ?_⟩
  · intro k s' hs
    simp only [step, Option.some.injEq] at hs
    subst hs
    rw [translate_task_index]
    exact list_index_append_left hp
  · intro o t s' hs
    cases hinf : s.inflight with
    | none => rw [step, hinf] at hs; exact absurd hs (by simp)
    | some i =>
        rw [step, hinf] at hs
        simp only [Option.some.injEq] at hs
        subst hs
        rw [translate_task_index]
        exact hp
  · intro s' hs
    cases hinf : s.inflight with
    | some i => cases htk : s.translate_tasks <;>
        rw [step, hinf, htk] at hs <;> exact absurd hs (by simp)
    | none =>
        cases htk : s.translate_tasks with
        | nil => rw [step, hinf, htk] at hs; exact absurd hs (by simp)
        | cons x rest =>
            rw [step, hinf, htk] at hs
            simp only [Option.some.injEq] at hs
            subst hs
            rw [htk] at hp hN
            rw [List.nodup_cons] at hN
            by_cases hx : x = j
            · subst hx
              rw [list_index, if_pos rfl] at hp
              have hp0 : p = 0 := by
                simpa using hp.symm
              subst hp0
              refine ⟨fun _ => ⟨rfl, ?_⟩, fun hlt => absurd hlt (by omega)⟩
              rw [translate_task_index]
              exact list_index_none_of_not_mem hN.1
            · rw [list_index, if_neg hx] at hp
              obtain ⟨q, hq, hpq⟩ := Option.map_eq_some'.mp hp
              refine ⟨fun h0 => absurd h0 (by omega), fun _ => ?_⟩
              rw [translate_task_index]
              have hq' : q = p - 1 := by omega
              exact hq' ▸ hq

/-- Witness for `c6_position_monotone` at the trace enqueue 1, enqueue 2,
observing job 2 at position 1 across a dispatch. -/
theorem c6_position_monotone_witness :
    translate_task_index
        (SysState.mk [2] [] (some 1) [1, 2] [1]).translate_tasks 2 =
      some (1 - 1) :=
  ((c6_position_monotone [.enqueue 1, .enqueue 2]
        (SysState.mk [1, 2] [] none [1, 2] []) (by decide) 2 1
        (by decide)).2.2 (SysState.mk [2] [] (some 1) [1, 2] [1])
      (by decide)).2 (by decide)

/-- Claim C2 is false as stated: eviction does not happen at the TTL
boundary.  The quantified statement below formalizes the claim — whenever
an entry is still present in the store at a query time `q` (a read of the
final state of a trace all of whose events happened at or before `q`),
then `q` is strictly before publish time plus TTL.  It fails at the
concrete trace enqueue 1, dispatch, publish at time 0, queried at
q = 600 = T + TRANSLATE_RESULT_TIMEOUT, where the entry is still present
because no later dispatch iteration ran the reaper. -/
theorem c2_boundary_counterexample :
    ¬ (∀ (evs : List Ev) (s : SysState) (j : JobId) (o : Outcome) (t q : Nat),
        runFresh SysState.init evs = some s →
        maxTime evs ≤ q →
        lookupResult s.translate_result j = some (o, t) →
        q < t + TRANSLATE_RESULT_TIMEOUT) := by
  intro hclaim
  have h := hclaim [.enqueue 1, .dispatch, .publish (.success 10) 0]
      (SysState.mk [] [(1, Outcome.success 10, 0)] none [1] [1])
      1 (Outcome.success 10) 0 600 (by decide) (by decide) (by decide)
  exact absurd h (by decide)

/-- Claim C2 (amended): a result entry published at time T is removed only
by the reaper, which runs only inside a publish step: enqueue and
dispatch steps leave `translate_result` unchanged, and a publish step at
time `now` retains an existing entry if and only if
`now ≤ T + TRANSLATE_RESULT_TIMEOUT`.  Eviction is therefore strict (an
entry survives a reap running exactly at the TTL boundary) and lazy (with
no further publish steps an entry persists indefinitely), not exact at the
boundary. -/
theorem c2_reap_strict_and_lazy (evs : List Ev) (s : SysState)
    (h : runFresh SysState.init evs = some s)
    (k : JobId) (o : Outcome) (t : Nat)
    (hk : (k, o, t) ∈ s.translate_result) :
    (∀ j s', step s (Ev.enqueue j) = some s' →
        (k, o, t) ∈ s'.translate_result) ∧
    (∀ s', step s Ev.dispatch = some s' →
        (k, o, t) ∈ s'.translate_result) ∧
    (∀ o' now s', step s (Ev.publish o' now) = some s' →
        ((k, o, t) ∈ s'.translate_result ↔
          now ≤ t + TRANSLATE_RESULT_TIMEOUT)) := by
  obtain ⟨hN, hQ, hF⟩ := sysInv_reachable h
  refine ⟨?_, ?_, ?_⟩
  · intro jj s' hs
    simp only [step, Option.some.injEq] at hs
    subst hs
    exact hk
  · intro s' hs
    cases hinf : s.inflight with
    | some i => cases htk : s.translate_tasks <;>
        rw [step, hinf, htk] at hs <;> exact absurd hs (by simp)
    | none =>
        cases htk : s.translate_tasks with
        | nil => rw [step, hinf, htk] at hs; exact absurd hs (by simp)
        | cons x rest =>
            rw [step_dispatch_eq hinf htk] at hs
            simp only [Option.some.injEq] at hs
            subst hs
            exact hk
  · intro o' now s' hs
    cases hinf : s.inflight with
    | none => rw [step, hinf] at hs; exact absurd hs (by simp)
    | some i =>
        rw [step_publish_eq hinf o' now] at hs
        simp only [Option.some.injEq] at hs
        subst hs
        have hki : k ≠ i := fun hc => (hF i hinf).2 (hc ▸ mem_keysOf.mpr ⟨o, t, hk⟩)
        show (k, o, t) ∈ reap (dinsert s.translate_result i o' now) now ↔ _
        rw [mem_reap, mem_dinsert_of_ne hki]
        constructor
        · rintro ⟨_, h2⟩
          omega
        · intro hle
          exact ⟨hk, by omega⟩

/-- Witness for `c2_reap_strict_and_lazy`: the entry of job 1 published at
time 0 survives the reap run by the publish of job 2 at time exactly 600. -/
theorem c2_reap_strict_and_lazy_witness :
    (1, Outcome.success 10, 0) ∈
        (SysState.mk []
          [(1, Outcome.success 10, 0), (2, Outcome.success 20, 600)]
          none [1, 2] [1, 2]).translate_result ↔
      600 ≤ 0 + TRANSLATE_RESULT_TIMEOUT :=
  (c2_reap_strict_and_lazy
      [.enqueue 1, .dispatch, .publish (.success 10) 0, .enqueue 2, .dispatch]
      (SysState.mk [] [(1, Outcome.success 10, 0)] (some 2) [1, 2] [1, 2])
      (by decide) 1 (Outcome.success 10) 0 (by decide)).2.2
    (Outcome.success 20) 600
    (SysState.mk [] [(1, Outcome.success 10, 0), (2, Outcome.success 20, 600)]
      none [1, 2] [1, 2]) (by decide)

/-- Claim C4 names a mechanism the code does not have: once the reaper has
evicted a job's entry, the waiter's result loop `while saved_file_path not
in translate_result` (src/main.py line 234) never terminates, and no
"result expired" report exists anywhere in `CatGirlService.run`.
Concretely: job 1 is published at time 0 and evicted by the reap inside
the publish of job 2 at time 601; from the resulting reachable state the
membership test for job 1 is false at every poll tick, so the fuel-bounded
wait loop returns none for every starting tick and every amount of fuel —
the caller waits forever. -/
theorem c4_wait_loop_diverges :
    runFresh SysState.init
        [Ev.enqueue 1, Ev.dispatch, Ev.publish (Outcome.success 10) 0,
         Ev.enqueue 2, Ev.dispatch, Ev.publish (Outcome.success 20) 601] =
      some (SysState.mk [] [(2, Outcome.success 20, 601)] none [1, 2] [1, 2]) ∧
    lookupResult [(2, Outcome.success 20, 601)] 1 = none ∧
    ∀ t0 fuel,
      waitResult
        (fun _ => (lookupResult [(2, Outcome.success 20, 601)] 1).isSome)
        t0 fuel = none := by
  refine ⟨by decide, by decide, ?_⟩
  intro t0 fuel
  induction fuel generalizing t0 with
  | zero => rfl
  | succ n ih =>
      simp only [waitResult]
      rw [if_neg (by decide)]
      exact ih (t0 + 1)

/-- Claim C7 is false as stated: the waiter's loop body treats a returned
position of `some 0` — the job still first in the queue, not yet
dispatched — exactly like `none`, because the source tests
`if not new_idx:` and Python's `not 0` is true.  At last observed position
1 and a fresh read of `some 0`, the body emits the "processing" transition
and breaks even though `translate_task_index` did not return none. -/
theorem c7_zero_position_counterexample :
    (pollOnce 1 (some 0)).1 = WaitMsg.processing ∧
    (pollOnce 1 (some 0)).2.2 = true ∧
    some 0 ≠ (none : Option Nat) := by decide

/-- Claim C7 (amended): the waiter transitions to "processing" (and stops
polling the position) exactly when `translate_task_index` returns `none`
or `some 0` — a job still at position 0 in the queue is already treated as
dispatched; it reports progress exactly when the returned position is
nonzero and differs from the last observed one (under the queue's
monotonicity a differing nonzero position is smaller), updating the
observed position to the returned one. -/
theorem c7_poll_transition (idx : Nat) (new_idx : Option Nat) :
    ((pollOnce idx new_idx).1 = WaitMsg.processing ↔
        new_idx = none ∨ new_idx = some 0) ∧
    ((pollOnce idx new_idx).2.2 = true ↔
        new_idx = none ∨ new_idx = some 0) ∧
    (∀ n, (pollOnce idx new_idx).1 = WaitMsg.progress n ↔
        new_idx = some n ∧ 0 < n ∧ n ≠ idx) ∧
    (∀ n, new_idx = some n → 0 < n → n ≠ idx →
        (pollOnce idx new_idx).2.1 = n) := by
  cases new_idx with
  | none =>
      refine ⟨by simp [pollOnce], by simp [pollOnce], fun n => ?_,
        fun n hn => by simp at hn⟩
      simp [pollOnce]
  | some n =>
      cases n with
      | zero =>
          refine ⟨by simp [pollOnce], by simp [pollOnce], fun m => ?_,
        fun m hm h0 => ?_⟩
          · simp only [pollOnce]
            constructor
            · intro hc
              exact absurd hc (by simp)
            · rintro ⟨hm, h0, _⟩
              simp only [Option.some.injEq] at hm
              omega
          · simp only [Option.some.injEq] at hm
            omega
      | succ k =>
          by_cases hi : idx = k + 1
          · refine ⟨?_, ?_, fun m => ?_, fun m hm h0 hne => ?_⟩
            · simp [pollOnce, hi]
            · simp [pollOnce, hi]
            · simp only [pollOnce, if_pos hi]
              constructor
              · intro hc
                exact absurd hc (by simp)
              · rintro ⟨hm, hlt, hne⟩
                simp only [Option.some.injEq] at hm
                omega
            · simp only [Option.some.injEq] at hm
              omega
          · refine ⟨?_, ?_, fun m => ?_, fun m hm h0 hne => ?_⟩
            · simp [pollOnce, hi]
            · simp [pollOnce, hi]
            · simp only [pollOnce, if_neg hi]
              constructor
              · intro hc
                simp only [WaitMsg.progress.injEq] at hc
                subst hc
                exact ⟨rfl, by omega, fun hc => hi hc.symm⟩
              · rintro ⟨hm, hlt, hne⟩
                simp only [Option.some.injEq] at hm
                subst hm
                rfl
            · simp only [Option.some.injEq] at hm
              subst hm
              simp [pollOnce, hi]

/-- Witness for `c7_poll_transition`: at last observed position 2 and a
fresh read of position 1, the body reports progress 1. -/
theorem c7_poll_transition_witness :
    (pollOnce 2 (some 1)).1 = WaitMsg.progress 1 :=
  ((c7_poll_transition 2 (some 1)).2.2.1 1).mpr (by decide)

/-- Claim C10: with a photo present, `save_photo` raises `PhotoTooBig` if
and only if the reported file size is strictly greater than 1048576 bytes
(1024 * 1024): a photo of exactly 1048576 bytes, a missing (`None`)
reported size, and a zero reported size are all accepted and proceed to
`add_translate_task`; and a `PhotoTooBig` rejection makes
`CatGirlService.run` return before the enqueue, leaving the pending queue
unchanged. -/
theorem c10_photo_size_check (file_size : Option Nat)
    (download_ok file_exists : Bool) (p : JobId) (tasks : List JobId) :
    (save_photo true file_size download_ok p =
        Except.error RunError.photoTooBig ↔
      ∃ n, file_size = some n ∧ 1024 * 1024 < n) ∧
    save_photo true (some (1024 * 1024)) true p = Except.ok p ∧
    save_photo true none true p = Except.ok p ∧
    save_photo true (some 0) true p = Except.ok p ∧
    (service_submit true (some (1024 * 1024)) true true p tasks).1 =
      tasks ++ [p] ∧
    (service_submit true none true true p tasks).1 = tasks ++ [p] ∧
    (service_submit true (some 0) true true p tasks).1 = tasks ++ [p] ∧
    (save_photo true file_size download_ok p =
        Except.error RunError.photoTooBig →
      (service_submit true file_size download_ok file_exists p tasks).1 =
          tasks ∧
        (service_submit true file_size download_ok file_exists p tasks).2 =
          SubmitOutcome.rejected RunError.photoTooBig) := by
  refine ⟨?_, rfl, rfl, rfl, rfl, rfl, rfl, ?_⟩
  · cases file_size with
    | none =>
        cases download_ok <;> simp [save_photo, file_too_big]
    | some n =>
        by_cases h0 : n = 0
        · subst h0
          cases download_ok <;> simp [save_photo, file_too_big]
        · by_cases hbig : 1024 * 1024 < n
          · simp [save_photo, file_too_big, h0, hbig]
          · cases download_ok <;> simp [save_photo, file_too_big, h0, hbig]
  · intro herr
    rw [service_submit, herr]
    exact ⟨rfl, rfl⟩

/-- Witness for `c10_photo_size_check`: a reported size of 2000000 bytes is
rejected as too big and the queue is left unchanged. -/
theorem c10_photo_size_check_witness :
    (service_submit true (some 2000000) true true 7 [3]).1 = [3] :=
  ((c10_photo_size_check (some 2000000) true true 7 [3]).2.2.2.2.2.2.2
    (by rfl)).1
